import Mathlib

/-!
Shallow embedding of `vibe-transcriber` (src/transcriber/whisper_utils.py and
src/transcriber/lrc_writer.py).  Python floats are modelled by `ℚ`, Python
strings by `List Char`, `None`-able values by `Option`.
-/

set_option maxRecDepth 4000

namespace VibeTranscriber

/-- Python whitespace characters as used by `str.strip()` / `\s` (ASCII part,
which covers all text this pipeline manipulates). -/
def isSpaceChar (c : Char) : Bool :=
  c == ' ' || c == '\t' || c == '\n' || c == '\r' || c == Char.ofNat 11 || c == Char.ofNat 12

/-- Python `str.strip()`: drop whitespace from both ends. -/
def pyStrip (l : List Char) : List Char :=
  ((l.dropWhile isSpaceChar).reverse.dropWhile isSpaceChar).reverse

/-- A character matched by the `_WORDLIKE` regex class `[\w\-]`:
alphanumeric, underscore or hyphen. -/
def isWordlikeChar (c : Char) : Bool :=
  c.isAlphanum || c == '_' || c == '-'

/-- The `WordToken` dataclass from whisper_utils.py.  The Python field `end` is
named `stop` here because `end` is a Lean keyword. -/
structure WordToken where
  start : ℚ
  stop : ℚ
  word : List Char
  probability : Option ℚ := none
deriving DecidableEq, Repr

/-- The `TranscriptSegment` dataclass from whisper_utils.py (`end` renamed `stop`). -/
structure TranscriptSegment where
  start : ℚ
  stop : ℚ
  text : List Char
  avg_logprob : Option ℚ := none
  no_speech_prob : Option ℚ := none
  speaker : Option (List Char) := none
  words : Option (List WordToken) := none
deriving DecidableEq, Repr

/-- Python `_should_mark_indistinct(text, avg_logprob, avg_word_prob)`:
true when the text is empty or has no word-like character, or a supplied
average word probability is below 0.40, or a supplied average log-probability
is below -1.2 (whisper_utils.py lines 54-61). -/
def should_mark_indistinct (text : List Char) (avg_logprob avg_word_prob : Option ℚ) : Bool :=
  if text.isEmpty || !(text.any isWordlikeChar) then true
  else if (match avg_word_prob with | some p => decide (p < 2/5) | none => false) then true
  else if (match avg_logprob with | some p => decide (p < -(6/5)) | none => false) then true
  else false

/-- Split `l` at the first occurrence of `cl`: return the (cl-free) content
before it and the rest after it, or `none` when `cl` does not occur.  This is
the `[^x]*x` scan the bracketed-aside regex performs after its opening
delimiter. -/
def spanUntil (cl : Char) : List Char → Option (List Char × List Char)
  | [] => none
  | c :: t =>
    if c == cl then some ([], t)
    else
      match spanUntil cl t with
      | some (content, rest) => some (c :: content, rest)
      | none => none

/-- Match `op`, then one or more characters other than `cl`, then `cl`, at the
head of `l` (the regex `\[[^\]]+\]` with `op = '['`, `cl = ']'`).  On success
return the matched group (delimiters included) and the rest of the input. -/
def matchDelim (op cl : Char) : List Char → Option (List Char × List Char)
  | [] => none
  | c :: t =>
    if c == op then
      match spanUntil cl t with
      | some (content, rest) =>
        if content.isEmpty then none else some (op :: (content ++ [cl]), rest)
      | none => none
    else none

/-- The regex alternation `\[[^\]]+\]|\([^\)]+\)` tried at the head of `l`. -/
def matchGroup (l : List Char) : Option (List Char × List Char) :=
  match matchDelim '[' ']' l with
  | some res => some res
  | none => matchDelim '(' ')' l

/-- Match the full `_BRACKETED` pattern `\s*(\[[^\]]+\]|\([^\)]+\))\s*` at the
head of `l`: greedy leading whitespace, the group, greedy trailing whitespace. -/
def tryMatchAt (l : List Char) : Option (List Char × List Char) :=
  match matchGroup (l.drop (l.takeWhile isSpaceChar).length) with
  | some (g, rest) => some (g, rest.dropWhile isSpaceChar)
  | none => none

theorem spanUntil_append {cl : Char} :
    ∀ {l content rest : List Char}, spanUntil cl l = some (content, rest) →
      l = content ++ cl :: rest := by
  intro l
  induction l with
  | nil => intro content rest h; simp [spanUntil] at h
  | cons c t ih =>
    intro content rest h
    unfold spanUntil at h
    by_cases hc : (c == cl) = true
    · rw [if_pos hc] at h
      obtain ⟨h1, h2⟩ := Prod.mk.injEq .. ▸ Option.some.inj h
      subst h1; subst h2
      simp [beq_iff_eq.mp hc]
    · rw [if_neg hc] at h
      match hrec : spanUntil cl t with
      | some (content0, rest0) =>
        rw [hrec] at h
        obtain ⟨h1, h2⟩ := Prod.mk.injEq .. ▸ Option.some.inj h
        subst h1; subst h2
        simpa using ih hrec
      | none => rw [hrec] at h; exact absurd h (by simp)

theorem matchDelim_length {op cl : Char} {l g r : List Char}
    (h : matchDelim op cl l = some (g, r)) : r.length < l.length := by
  match l with
  | [] => simp [matchDelim] at h
  | c :: t =>
    simp only [matchDelim] at h
    by_cases hop : (c == op) = true
    · rw [if_pos hop] at h
      match hrec : spanUntil cl t with
      | some (content, rest) =>
        rw [hrec] at h
        dsimp only at h
        by_cases hce : content.isEmpty
        · rw [if_pos hce] at h; exact absurd h (by simp)
        · rw [if_neg hce] at h
          obtain ⟨h1, h2⟩ := Prod.mk.injEq .. ▸ Option.some.inj h
          subst h2
          have := congrArg List.length (spanUntil_append hrec)
          simp only [List.length_append, List.length_cons] at this ⊢
          omega
      | none => rw [hrec] at h; exact absurd h (by simp)
    · rw [if_neg hop] at h; exact absurd h (by simp)

theorem matchGroup_length {l g r : List Char} (h : matchGroup l = some (g, r)) :
    r.length < l.length := by
  unfold matchGroup at h
  match hb : matchDelim '[' ']' l with
  | some res =>
    rw [hb] at h
    exact matchDelim_length (hb.trans (congrArg some (Option.some.inj h)))
  | none =>
    rw [hb] at h
    exact matchDelim_length h

theorem tryMatchAt_length {l g r : List Char} (h : tryMatchAt l = some (g, r)) :
    r.length < l.length := by
  unfold tryMatchAt at h
  match hm : matchGroup (l.drop (l.takeWhile isSpaceChar).length) with
  | some (g0, r0) =>
    rw [hm] at h
    obtain ⟨h1, h2⟩ := Prod.mk.injEq .. ▸ Option.some.inj h
    subst h2
    have hlt : r0.length < (l.drop (l.takeWhile isSpaceChar).length).length :=
      matchGroup_length hm
    have hle : (l.drop (l.takeWhile isSpaceChar).length).length ≤ l.length := by
      rw [List.length_drop]; omega
    have hdw : (r0.dropWhile isSpaceChar).length ≤ r0.length :=
      (List.dropWhile_sublist _).length_le
    omega
  | none => rw [hm] at h; exact absurd h (by simp)

/-- The replacement Python's `repl` builds for one matched group `g`
(whisper_utils.py lines 66-73): strip, remove one layer of `[...]`, then one
layer of `(...)` (each followed by a strip), and surround with ` *...* `. -/
def replacementFor (g : List Char) : List Char :=
  let i0 := pyStrip g
  let i1 := if i0.head? == some '[' && i0.getLast? == some ']' then
              pyStrip (i0.drop 1).dropLast
            else i0
  let i2 := if i1.head? == some '(' && i1.getLast? == some ')' then
              pyStrip (i1.drop 1).dropLast
            else i1
  ' ' :: '*' :: (i2 ++ ['*', ' '])

/-- Left-to-right scan of `re.sub`: at each position, if the `_BRACKETED`
pattern matches, emit the replacement and continue after the match; otherwise
keep the character and move on.  The fuel argument only drives structural
recursion; `emphasizeAux_fuel_irrel` shows any fuel of at least the list
length gives the same (fuel-free) scan. -/
def emphasizeAux : ℕ → List Char → List Char
  | 0, _ => []
  | fuel + 1, l =>
    match l with
    | [] => []
    | c :: cs =>
      match tryMatchAt (c :: cs) with
      | some (g, rest) => replacementFor g ++ emphasizeAux fuel rest
      | none => c :: emphasizeAux fuel cs

theorem emphasizeAux_nil (fuel : ℕ) : emphasizeAux fuel [] = [] := by
  cases fuel <;> rfl

theorem emphasizeAux_cons (fuel : ℕ) (c : Char) (cs : List Char) :
    emphasizeAux (fuel + 1) (c :: cs) =
      match tryMatchAt (c :: cs) with
      | some (g, rest) => replacementFor g ++ emphasizeAux fuel rest
      | none => c :: emphasizeAux fuel cs := rfl

theorem emphasizeAux_fuel_irrel :
    ∀ (fuel1 fuel2 : ℕ) (l : List Char), l.length ≤ fuel1 → l.length ≤ fuel2 →
      emphasizeAux fuel1 l = emphasizeAux fuel2 l := by
  intro fuel1
  induction fuel1 with
  | zero =>
    intro fuel2 l h1 _
    have hl : l = [] := List.length_eq_zero.mp (Nat.le_zero.mp h1)
    subst hl
    rw [emphasizeAux_nil, emphasizeAux_nil]
  | succ k ih =>
    intro fuel2 l h1 h2
    match l with
    | [] => rw [emphasizeAux_nil, emphasizeAux_nil]
    | c :: cs =>
      match fuel2 with
      | 0 => simp at h2
      | m + 1 =>
        rw [emphasizeAux_cons, emphasizeAux_cons]
        simp only [List.length_cons] at h1 h2
        cases hm : tryMatchAt (c :: cs) with
        | some gr =>
          obtain ⟨g, rest⟩ := gr
          have hlt := tryMatchAt_length hm
          simp only [List.length_cons] at hlt
          dsimp only
          congr 1
          exact ih m rest (by omega) (by omega)
        | none =>
          dsimp only
          congr 1
          exact ih m cs (by omega) (by omega)

/-- Python `_emphasize_bracketed(text)` (whisper_utils.py lines 64-75): rewrite each
bracketed or parenthetical aside to ` *inner* `, scanning left to right. -/
def emphasize_bracketed (text : List Char) : List Char := emphasizeAux text.length text

/-- The fuel-free recurrence `emphasize_bracketed` satisfies: exactly the
left-to-right scan of `re.sub`. -/
theorem emphasize_bracketed_rec (l : List Char) :
    emphasize_bracketed l =
      match l with
      | [] => []
      | c :: cs =>
        match tryMatchAt (c :: cs) with
        | some (g, rest) => replacementFor g ++ emphasize_bracketed rest
        | none => c :: emphasize_bracketed cs := by
  match l with
  | [] => rfl
  | c :: cs =>
    show emphasizeAux (cs.length + 1) (c :: cs) =
      match tryMatchAt (c :: cs) with
      | some (g, rest) => replacementFor g ++ emphasize_bracketed rest
      | none => c :: emphasize_bracketed cs
    rw [emphasizeAux_cons]
    cases hm : tryMatchAt (c :: cs) with
    | some gr =>
      obtain ⟨g, rest⟩ := gr
      have hlt := tryMatchAt_length hm
      simp only [List.length_cons] at hlt
      dsimp only
      congr 1
      exact emphasizeAux_fuel_irrel cs.length rest.length rest (by omega) le_rfl
    | none => rfl

/-- The text finalisation inlined in `transcribe_file`
(whisper_utils.py lines 156-161, and identically lines 119-129): emphasize
asides in the raw text, then, when `_should_mark_indistinct` fires on the raw
text, wrap the emphasized text in `*...*`, or produce the `*indistinct*`
marker when it is empty. -/
def finalize (raw : List Char) (avg_logprob avg_word_prob : Option ℚ) : List Char :=
  let text := emphasize_bracketed raw
  if should_mark_indistinct raw avg_logprob avg_word_prob then
    if text.isEmpty then "*indistinct*".data else '*' :: (text ++ ['*'])
  else text

/-- The word-partition loop of `_split_segment_at_time`
(whisper_utils.py lines 186-199): each word goes left when it ends at or
before the boundary, right when it starts at or after it, and a straddling
word is truncated to the side its midpoint falls on. -/
def splitWords (b : ℚ) : List WordToken → List WordToken × List WordToken
  | [] => ([], [])
  | w :: rest =>
    let lr := splitWords b rest
    if w.stop ≤ b then (w :: lr.1, lr.2)
    else if w.start ≥ b then (lr.1, w :: lr.2)
    else if (w.start + w.stop) / 2 ≤ b then ({ w with stop := b } :: lr.1, lr.2)
    else (lr.1, { w with start := b } :: lr.2)

/-- The text `_split_segment_at_time` gives a sub-segment built from one
side's words (whisper_utils.py lines 203-208 and 216-221): concatenate the
word texts, strip, emphasize asides; the literal `*indistinct*` when the
stripped concatenation is empty. -/
def sideText (ws : List WordToken) : List Char :=
  let t := pyStrip (ws.map WordToken.word).flatten
  if t.isEmpty then "*indistinct*".data else emphasize_bracketed t

/-- Build one sub-segment of `_split_segment_at_time` from one side's words
(whisper_utils.py lines 201-227): text from `sideText`, confidence fields and
speaker carried over from the original segment. -/
def mkSplitPart (segment : TranscriptSegment) (s e : ℚ) (ws : List WordToken) :
    TranscriptSegment :=
  { start := s
    stop := e
    text := sideText ws
    avg_logprob := segment.avg_logprob
    no_speech_prob := segment.no_speech_prob
    speaker := segment.speaker
    words := some ws }

/-- Python `_split_segment_at_time(segment, boundary_time)`
(whisper_utils.py lines 177-231).  A `words` field that is `none` or `some []`
is falsy in Python (`if not segment.words`), so both take the no-alignment
fallback branch. -/
def split_segment_at_time (segment : TranscriptSegment) (boundary_time : ℚ) :
    List TranscriptSegment :=
  if boundary_time ≤ segment.start ∨ boundary_time ≥ segment.stop then [segment]
  else
    match segment.words with
    | some (w :: ws) =>
      let lr := splitWords boundary_time (w :: ws)
      let parts :=
        (if lr.1.isEmpty then [] else [mkSplitPart segment segment.start boundary_time lr.1]) ++
        (if lr.2.isEmpty then [] else [mkSplitPart segment boundary_time segment.stop lr.2])
      if parts.isEmpty then
        [{ segment with stop := boundary_time, text := "*indistinct*".data }]
      else parts
    | _ =>
      [{ segment with stop := boundary_time },
       { segment with start := boundary_time, text := [] }]

/-- Python `_split_segments_at_boundaries(segments, boundaries)`
(whisper_utils.py lines 234-248): iteratively split every segment at every
boundary (ascending), then drop parts whose stripped text is empty. -/
def split_segments_at_boundaries (segments : List TranscriptSegment)
    (boundaries : List ℚ) : List TranscriptSegment :=
  if segments.isEmpty || boundaries.isEmpty then segments
  else
    let sorted_bs := boundaries.insertionSort (· ≤ ·)
    let result := segments.flatMap (fun seg =>
      sorted_bs.foldl
        (fun stack b => stack.flatMap (fun part => split_segment_at_time part b)) [seg])
    result.filter (fun s => !(pyStrip s.text).isEmpty)

/-- The `(start, end)` lexicographic key order that Python's stable
`merged.sort(key=lambda s: (s.start, s.end))` sorts by. -/
def segLE (a b : TranscriptSegment) : Prop :=
  a.start < b.start ∨ (a.start = b.start ∧ a.stop ≤ b.stop)

instance : DecidableRel segLE := fun a b =>
  inferInstanceAs (Decidable (a.start < b.start ∨ (a.start = b.start ∧ a.stop ≤ b.stop)))

instance : IsTotal TranscriptSegment segLE where
  total a b := by
    rcases lt_trichotomy a.start b.start with h | h | h
    · exact Or.inl (Or.inl h)
    · rcases le_total a.stop b.stop with h2 | h2
      · exact Or.inl (Or.inr ⟨h, h2⟩)
      · exact Or.inr (Or.inr ⟨h.symm, h2⟩)
    · exact Or.inr (Or.inl h)

instance : IsTrans TranscriptSegment segLE where
  trans a b c hab hbc := by
    rcases hab with h1 | ⟨h1, h1'⟩ <;> rcases hbc with h2 | ⟨h2, h2'⟩
    · exact Or.inl (h1.trans h2)
    · exact Or.inl (h2 ▸ h1)
    · exact Or.inl (h1 ▸ h2)
    · exact Or.inr ⟨h1.trans h2, h1'.trans h2'⟩

/-- Python `merge_dialogue(left_segments, left_speaker, right_segments, right_speaker)`
(whisper_utils.py lines 251-273): label each side's segments with its speaker,
split each side at the other side's segment starts, concatenate and stable-sort
by `(start, end)`. -/
def merge_dialogue (left_segments : List TranscriptSegment) (left_speaker : List Char)
    (right_segments : List TranscriptSegment) (right_speaker : List Char) :
    List TranscriptSegment :=
  let left_list := left_segments.map (fun s => { s with speaker := some left_speaker })
  let right_list := right_segments.map (fun s => { s with speaker := some right_speaker })
  let left_boundaries := right_list.map TranscriptSegment.start
  let right_boundaries := left_list.map TranscriptSegment.start
  let left_final := split_segments_at_boundaries left_list left_boundaries
  let right_final := split_segments_at_boundaries right_list right_boundaries
  (left_final ++ right_final).insertionSort segLE

/-- Python `round` on our rational model: round half to even. -/
def pyRound (q : ℚ) : ℤ :=
  if q - ⌊q⌋ < 1/2 then ⌊q⌋
  else if q - ⌊q⌋ > 1/2 then ⌊q⌋ + 1
  else if ⌊q⌋ % 2 = 0 then ⌊q⌋ else ⌊q⌋ + 1

/-- The decimal digit character for `n % 10`. -/
def digitChar (n : ℕ) : Char := Char.ofNat (48 + n % 10)

/-- Fuel-driven most-significant-first decimal digit expansion. -/
def natDigitsAux : ℕ → ℕ → List Char
  | 0, _ => []
  | fuel + 1, n => if n = 0 then [] else natDigitsAux fuel (n / 10) ++ [digitChar (n % 10)]

/-- Python `f"<n>:02d"` for non-negative `n`: decimal digits, left padded with
a zero to width two (wider numbers are kept whole). -/
def pad2 (n : ℕ) : List Char :=
  let d := if n = 0 then ['0'] else natDigitsAux (n + 1) n
  if d.length < 2 then '0' :: d else d

/-- Python `_fmt_time(seconds)` (lrc_writer.py lines 9-15): clamp negatives to zero,
then render `[MM:SS.CC]` with `MM = int(s // 60)`, `SS = int(s - 60*MM)` and
`CC = round(fractional-second * 100)`; Python `round` is round half to even. -/
def fmt_time (seconds : ℚ) : List Char :=
  let s := if seconds < 0 then 0 else seconds
  let minutes : ℤ := ⌊s / 60⌋
  let secs : ℚ := s - minutes * 60
  let centis : ℤ := pyRound ((secs - ⌊secs⌋) * 100)
  '[' :: (pad2 minutes.toNat ++
    (':' :: (pad2 (⌊secs⌋).toNat ++ ('.' :: (pad2 centis.toNat ++ [']'])))))

/-! ### Helper lemmas about the splitter -/

/-- An interior split of a word-aligned segment never leaves both sides empty:
the first word is appended to one of the two sides by the partition loop. -/
theorem splitWords_cons_ne_nil (b : ℚ) (w : WordToken) (rest : List WordToken) :
    (splitWords b (w :: rest)).1 ≠ [] ∨ (splitWords b (w :: rest)).2 ≠ [] := by
  unfold splitWords
  split_ifs <;> simp

theorem split_aligned_eq (segment : TranscriptSegment) (w : WordToken)
    (ws : List WordToken) (b : ℚ) (hw : segment.words = some (w :: ws))
    (h1 : segment.start < b) (h2 : b < segment.stop) :
    split_segment_at_time segment b =
      (if (splitWords b (w :: ws)).1.isEmpty then [] else
        [mkSplitPart segment segment.start b (splitWords b (w :: ws)).1]) ++
      (if (splitWords b (w :: ws)).2.isEmpty then [] else
        [mkSplitPart segment b segment.stop (splitWords b (w :: ws)).2]) := by
  unfold split_segment_at_time
  rw [if_neg (by push_neg; exact ⟨h1, h2⟩), hw]
  dsimp only
  rw [if_neg]
  rcases splitWords_cons_ne_nil b w ws with h | h <;>
    simp [List.isEmpty_iff, h]

/-! ### Concrete segments used by witnesses and counterexamples -/

/-- A word-aligned two-word segment with a low average log-probability. -/
def exA : TranscriptSegment :=
  ⟨0, 2, "Hello world".data, some (-2), none, none,
    some [⟨0, 1, "Hello ".data, none⟩, ⟨1, 2, "world".data, none⟩]⟩

/-- Scenario 3 of §8: two words meeting exactly at the boundary. -/
def exScene3 : TranscriptSegment :=
  ⟨0, 2, "Hello world".data, none, none, none,
    some [⟨0, 1, "Hello ".data, none⟩, ⟨1, 2, " world".data, none⟩]⟩

/-- A word-aligned segment whose single word lies strictly right of time 1. -/
def exGap : TranscriptSegment :=
  ⟨0, 4, "hi".data, none, none, none, some [⟨2, 3, "hi".data, none⟩]⟩

/-- A plain segment without word alignment. -/
def exPlain : TranscriptSegment := ⟨0, 2, "Hello".data, none, none, none, none⟩

/-! ### C4 -/

/-- C4: splitting a segment without word alignment at a boundary strictly
inside its span returns exactly a left copy with `end = boundary` and the
original text, then a right copy with `start = boundary` and empty text. -/
theorem C4_split_without_words (segment : TranscriptSegment) (b : ℚ)
    (hw : segment.words = none) (h1 : segment.start < b) (h2 : b < segment.stop) :
    split_segment_at_time segment b =
      [{ segment with stop := b }, { segment with start := b, text := [] }] := by
  unfold split_segment_at_time
  rw [if_neg (by push_neg; exact ⟨h1, h2⟩), hw]

/-- Witness for C4 at `exPlain` split at time 1. -/
theorem C4_witness :
    split_segment_at_time exPlain 1 =
      [{ exPlain with stop := 1 }, { exPlain with start := 1, text := [] }] :=
  C4_split_without_words exPlain 1 rfl (by norm_num [exPlain]) (by norm_num [exPlain])

/-! ### C3 -/

/-- Left-side word assignment exactly as §4.2 words it: a word ending at or
before the boundary goes left whole; a word starting at or after it does not
go left; a straddling word goes left, truncated to `(start, boundary)`,
exactly when its midpoint `(start+end)/2` is at or before the boundary. -/
def leftAssign (b : ℚ) (w : WordToken) : Option WordToken :=
  if w.stop ≤ b then some w
  else if w.start ≥ b then none
  else if (w.start + w.stop) / 2 ≤ b then some { w with stop := b }
  else none

/-- Right-side word assignment exactly as §4.2 words it: symmetric to
`leftAssign`; a straddling word goes right, truncated to `(boundary, end)`,
exactly when its midpoint is strictly after the boundary. -/
def rightAssign (b : ℚ) (w : WordToken) : Option WordToken :=
  if w.stop ≤ b then none
  else if w.start ≥ b then some w
  else if (w.start + w.stop) / 2 ≤ b then none
  else some { w with start := b }

theorem splitWords_eq_filterMap (b : ℚ) :
    ∀ ws : List WordToken,
      splitWords b ws = (ws.filterMap (leftAssign b), ws.filterMap (rightAssign b))
  | [] => rfl
  | w :: rest => by
    have ih := splitWords_eq_filterMap b rest
    unfold splitWords
    rw [ih, List.filterMap_cons, List.filterMap_cons]
    by_cases hc1 : w.stop ≤ b
    · simp [leftAssign, rightAssign, hc1]
    · by_cases hc2 : w.start ≥ b
      · simp [leftAssign, rightAssign, hc1, hc2]
      · by_cases hc3 : (w.start + w.stop) / 2 ≤ b
        · simp [leftAssign, rightAssign, hc1, hc2, hc3]
        · simp [leftAssign, rightAssign, hc1, hc2, hc3]

/-- C3: the word-partition loop realises exactly the explicit per-word
side assignment, and for every straddling word (`start < boundary < end`)
the midpoint rule puts a single truncated token on exactly one side: left as
`(start, boundary)` when the midpoint is at or before the boundary, right as
`(boundary, end)` otherwise; the opposite side receives nothing for it. -/
theorem C3_straddle_midpoint (ws : List WordToken) (b : ℚ) :
    splitWords b ws = (ws.filterMap (leftAssign b), ws.filterMap (rightAssign b))
    ∧ ∀ w : WordToken, w.start < b → b < w.stop →
        (((w.start + w.stop) / 2 ≤ b →
          leftAssign b w = some { w with stop := b } ∧ rightAssign b w = none)
        ∧ (¬((w.start + w.stop) / 2 ≤ b) →
          leftAssign b w = none ∧ rightAssign b w = some { w with start := b })) := by
  refine ⟨splitWords_eq_filterMap b ws, ?_⟩
  intro w h1 h2
  have hn1 : ¬ w.stop ≤ b := not_le.mpr h2
  have hn2 : ¬ w.start ≥ b := not_le.mpr h1
  constructor <;> intro hc <;>
    constructor <;> simp [leftAssign, rightAssign, hn1, hn2, hc]

/-- Witness for C3: the single word `(0, 2)` straddles boundary 1 with
midpoint exactly 1, so it is truncated to `(0, 1)` and sent left only. -/
theorem C3_witness :
    splitWords 1 [⟨0, 2, "hi".data, none⟩] = ([⟨0, 1, "hi".data, none⟩], [])
    ∧ leftAssign 1 ⟨0, 2, "hi".data, none⟩ = some ⟨0, 1, "hi".data, none⟩
    ∧ rightAssign 1 ⟨0, 2, "hi".data, none⟩ = none := by
  have h := C3_straddle_midpoint [⟨0, 2, "hi".data, none⟩] 1
  have h2 := (h.2 ⟨0, 2, "hi".data, none⟩ (by norm_num) (by norm_num)).1 (by norm_num)
  refine ⟨?_, h2.1, h2.2⟩
  rw [h.1, List.filterMap_cons, List.filterMap_cons, h2.1, h2.2]
  rfl

/-! ### C10 -/

/-- C10: `split` never returns an empty list; for a present, non-empty words
list and an interior boundary the partition loop leaves at least one side
non-empty, so the degenerate both-sides-empty placeholder branch is
unreachable and the result has exactly one or two parts; a present-but-empty
words list takes the no-word-alignment fallback branch. -/
theorem C10_split_never_empty :
    (∀ (segment : TranscriptSegment) (b : ℚ), split_segment_at_time segment b ≠ [])
    ∧ (∀ (segment : TranscriptSegment) (w : WordToken) (ws : List WordToken) (b : ℚ),
        segment.words = some (w :: ws) → segment.start < b → b < segment.stop →
        ¬((splitWords b (w :: ws)).1 = [] ∧ (splitWords b (w :: ws)).2 = [])
        ∧ ((split_segment_at_time segment b).length = 1
           ∨ (split_segment_at_time segment b).length = 2))
    ∧ (∀ (segment : TranscriptSegment) (b : ℚ),
        segment.words = some [] → segment.start < b → b < segment.stop →
        split_segment_at_time segment b =
          [{ segment with stop := b }, { segment with start := b, text := [] }]) := by
  refine ⟨?_, ?_, ?_⟩
  · intro segment b
    by_cases hout : b ≤ segment.start ∨ b ≥ segment.stop
    · unfold split_segment_at_time
      rw [if_pos hout]
      simp
    · push_neg at hout
      match hw : segment.words with
      | none =>
        unfold split_segment_at_time
        rw [if_neg (by push_neg; exact hout), hw]
        simp
      | some [] =>
        unfold split_segment_at_time
        rw [if_neg (by push_neg; exact hout), hw]
        simp
      | some (w :: ws) =>
        rw [split_aligned_eq segment w ws b hw hout.1 hout.2]
        rcases splitWords_cons_ne_nil b w ws with h | h <;>
          simp [List.isEmpty_iff, h, List.append_eq_nil]
  · intro segment w ws b hw h1 h2
    constructor
    · rintro ⟨hl, hr⟩
      rcases splitWords_cons_ne_nil b w ws with h | h <;> exact h (by assumption)
    · rw [split_aligned_eq segment w ws b hw h1 h2]
      rcases splitWords_cons_ne_nil b w ws with h | h <;>
        by_cases h' : (splitWords b (w :: ws)).1.isEmpty <;>
          by_cases h'' : (splitWords b (w :: ws)).2.isEmpty <;>
            simp_all [List.isEmpty_iff]
  · intro segment b hw h1 h2
    unfold split_segment_at_time
    rw [if_neg (by push_neg; exact ⟨h1, h2⟩), hw]

/-- Witness for C10: the split of `exScene3` at time 1 has exactly two parts,
and the split of `exPlain` (no word alignment) at time 1 is non-empty. -/
theorem C10_witness :
    split_segment_at_time exPlain 1 ≠ []
    ∧ ¬((splitWords 1 [⟨0, 1, "Hello ".data, none⟩, ⟨1, 2, " world".data, none⟩]).1 = []
        ∧ (splitWords 1 [⟨0, 1, "Hello ".data, none⟩, ⟨1, 2, " world".data, none⟩]).2 = [])
    ∧ ((split_segment_at_time exScene3 1).length = 1
       ∨ (split_segment_at_time exScene3 1).length = 2) := by
  have h2 := C10_split_never_empty.2.1 exScene3 ⟨0, 1, "Hello ".data, none⟩
    [⟨1, 2, " world".data, none⟩] 1 rfl (by norm_num [exScene3]) (by norm_num [exScene3])
  exact ⟨C10_split_never_empty.1 exPlain 1, h2.1, h2.2⟩

/-! ### C2 -/

/-- The time spans of `parts` partition `[s, e]` at the interior cut `t`:
they are exactly `[s, t]` and `[t, e]`, in order — full coverage, no gap, no
overlap, cut precisely at `t`. -/
def partitionsAt (parts : List TranscriptSegment) (s t e : ℚ) : Prop :=
  parts.map (fun p => (p.start, p.stop)) = [(s, t), (t, e)]

/-- Counterexample to C2 as stated: `exGap` is word-aligned with the single
word `(2, 3)`, the boundary 1 is strictly inside `(0, 4)` and no word
straddles it, yet the split returns a single part spanning `(1, 4)`: the
sub-span `[0, 1]` of the original segment is covered by no part. -/
theorem C2_counterexample :
    exGap.words = some [⟨2, 3, "hi".data, none⟩]
    ∧ exGap.start < 1 ∧ (1 : ℚ) < exGap.stop
    ∧ ¬((2 : ℚ) < 1 ∧ (1 : ℚ) < 3)
    ∧ (split_segment_at_time exGap 1).map (fun p => (p.start, p.stop)) = [(1, 4)]
    ∧ ¬ partitionsAt (split_segment_at_time exGap 1) exGap.start 1 exGap.stop := by
  refine ⟨rfl, by decide, by decide, by decide, by decide, ?_⟩
  unfold partitionsAt
  decide

/-- C2 (amended): for a word-aligned segment, a boundary strictly inside its
span that no word straddles, and at least one word assigned to each side, the
parts of the split span exactly `[start, boundary]` and `[boundary, end]` —
a partition of the original span cut at the boundary. -/
theorem C2_partition_amended (segment : TranscriptSegment) (w : WordToken)
    (ws : List WordToken) (b : ℚ) (hw : segment.words = some (w :: ws))
    (h1 : segment.start < b) (h2 : b < segment.stop)
    (hstraddle : ∀ x ∈ w :: ws, ¬(x.start < b ∧ b < x.stop))
    (hl : (splitWords b (w :: ws)).1 ≠ []) (hr : (splitWords b (w :: ws)).2 ≠ []) :
    partitionsAt (split_segment_at_time segment b) segment.start b segment.stop := by
  unfold partitionsAt
  rw [split_aligned_eq segment w ws b hw h1 h2]
  rw [if_neg (by simpa [List.isEmpty_iff] using hl),
    if_neg (by simpa [List.isEmpty_iff] using hr)]
  simp [mkSplitPart]

/-- Witness for C2 (amended) at scenario 3 of §8: two words meeting exactly
at the boundary partition `[0, 2]` into `[0, 1]` and `[1, 2]`. -/
theorem C2_witness :
    partitionsAt (split_segment_at_time exScene3 1) 0 1 2 :=
  C2_partition_amended exScene3 ⟨0, 1, "Hello ".data, none⟩ [⟨1, 2, " world".data, none⟩] 1
    rfl (by decide) (by decide) (by decide) (by decide) (by decide)

/-! ### C1 -/

/-- Counterexample to C1 as stated: for `exA` (whose `avg_logprob` is -2,
below the -1.2 threshold) split at 1, the left part's text is plain `Hello`,
while `finalize` on the same stripped concatenation with the segment's
confidence values would have wrapped it as `*Hello*` (and likewise right):
the split applies no indistinct thresholding. -/
theorem C1_counterexample :
    exA.avg_logprob = some (-2) ∧ exA.no_speech_prob = none
    ∧ (split_segment_at_time exA 1).map TranscriptSegment.text
        = ["Hello".data, "world".data]
    ∧ finalize "Hello".data (some (-2)) none = "*Hello*".data
    ∧ "*Hello*".data ≠ "Hello".data := by
  have hsm : should_mark_indistinct "Hello".data (some (-2)) none = true := by
    unfold should_mark_indistinct
    rw [if_neg (by decide), if_neg (by decide), if_pos]
    show decide ((-2 : ℚ) < -(6/5)) = true
    rw [decide_eq_true_eq]
    norm_num
  refine ⟨rfl, rfl, by decide, ?_, by decide⟩
  unfold finalize
  rw [if_pos hsm, if_neg (by decide)]
  decide

/-- C1 (amended): the word-aligned interior split builds the left part (when
its side's words are non-empty) spanning `[start, boundary]` with text
`emphasizeAsides(strip(join(leftWords)))` — or the literal `*indistinct*`
when that stripped concatenation is empty — and symmetrically the right part
from `rightWords` spanning `[boundary, end]`; each part's text comes from its
own side's word texts, no confidence-based thresholding is applied, and each
part carries the segment's `speaker`, `avg_logprob` and `no_speech_prob`
unchanged. -/
theorem C1_split_part_text (segment : TranscriptSegment) (w : WordToken)
    (ws : List WordToken) (b : ℚ) (hw : segment.words = some (w :: ws))
    (h1 : segment.start < b) (h2 : b < segment.stop) :
    split_segment_at_time segment b =
      (if (splitWords b (w :: ws)).1.isEmpty then [] else
        [{ start := segment.start
           stop := b
           text := sideText (splitWords b (w :: ws)).1
           avg_logprob := segment.avg_logprob
           no_speech_prob := segment.no_speech_prob
           speaker := segment.speaker
           words := some (splitWords b (w :: ws)).1 }]) ++
      (if (splitWords b (w :: ws)).2.isEmpty then [] else
        [{ start := b
           stop := segment.stop
           text := sideText (splitWords b (w :: ws)).2
           avg_logprob := segment.avg_logprob
           no_speech_prob := segment.no_speech_prob
           speaker := segment.speaker
           words := some (splitWords b (w :: ws)).2 }]) := by
  rw [split_aligned_eq segment w ws b hw h1 h2]
  rfl

/-- Witness for C1 (amended): `exA` split at 1 yields the left part
(`[0, 1]`, text from `Hello `) and the right part (`[1, 2]`, text from
`world`), each with `exA`'s confidence fields and speaker. -/
theorem C1_witness :
    split_segment_at_time exA 1 =
      (if (splitWords 1 [⟨0, 1, "Hello ".data, none⟩, ⟨1, 2, "world".data, none⟩]).1.isEmpty
       then [] else
        [{ start := exA.start
           stop := 1
           text := sideText
             (splitWords 1 [⟨0, 1, "Hello ".data, none⟩, ⟨1, 2, "world".data, none⟩]).1
           avg_logprob := exA.avg_logprob
           no_speech_prob := exA.no_speech_prob
           speaker := exA.speaker
           words := some
             (splitWords 1 [⟨0, 1, "Hello ".data, none⟩, ⟨1, 2, "world".data, none⟩]).1 }]) ++
      (if (splitWords 1 [⟨0, 1, "Hello ".data, none⟩, ⟨1, 2, "world".data, none⟩]).2.isEmpty
       then [] else
        [{ start := 1
           stop := exA.stop
           text := sideText
             (splitWords 1 [⟨0, 1, "Hello ".data, none⟩, ⟨1, 2, "world".data, none⟩]).2
           avg_logprob := exA.avg_logprob
           no_speech_prob := exA.no_speech_prob
           speaker := exA.speaker
           words := some
             (splitWords 1 [⟨0, 1, "Hello ".data, none⟩, ⟨1, 2, "world".data, none⟩]).2 }]) :=
  C1_split_part_text exA ⟨0, 1, "Hello ".data, none⟩ [⟨1, 2, "world".data, none⟩] 1
    rfl (by decide) (by decide)

/-! ### C5 -/

/-- Predicate `isIndistinct` written following §4.1's wording: raw text empty or with
no word-like character, or an avgWordProbability present and below 0.40, or
an avgLogprob present and below -1.2. -/
def isIndistinctSpec (rawText : List Char) (avgLogprob avgWordProbability : Option ℚ) : Bool :=
  (rawText.isEmpty || rawText.all (fun c => !isWordlikeChar c))
  || (match avgWordProbability with | some p => decide (p < 2/5) | none => false)
  || (match avgLogprob with | some p => decide (p < -(6/5)) | none => false)

theorem all_not_eq_not_any (l : List Char) :
    l.all (fun c => !isWordlikeChar c) = !(l.any isWordlikeChar) := by
  induction l with
  | nil => rfl
  | cons c cs ih => simp [List.all_cons, List.any_cons, ih, Bool.not_or]

theorem should_mark_indistinct_eq_spec (text : List Char) (alp awp : Option ℚ) :
    should_mark_indistinct text alp awp = isIndistinctSpec text alp awp := by
  unfold should_mark_indistinct isIndistinctSpec
  rw [all_not_eq_not_any]
  cases h1 : text.isEmpty || !text.any isWordlikeChar <;>
    cases h2 : (match awp with | some p => decide (p < 2/5) | none => false) <;>
      cases h3 : (match alp with | some p => decide (p < -(6/5)) | none => false) <;>
        simp [h1, h2, h3]

/-- C5: `finalize` emphasizes the raw text and returns it unchanged unless
the raw (pre-emphasis) text is indistinct per the spec's three conditions;
when indistinct it wraps the non-empty emphasized text in `*...*` and falls
back to the literal `*indistinct*` marker otherwise; in particular
`finalize("", None, None) = "*indistinct*"` and
`finalize("uh", -2.0, None) = "*uh*"`. -/
theorem C5_finalize_spec :
    (∀ (raw : List Char) (alp awp : Option ℚ),
      finalize raw alp awp =
        if isIndistinctSpec raw alp awp then
          (if (emphasize_bracketed raw).isEmpty then "*indistinct*".data
           else '*' :: (emphasize_bracketed raw ++ ['*']))
        else emphasize_bracketed raw)
    ∧ finalize [] none none = "*indistinct*".data
    ∧ finalize "uh".data (some (-2)) none = "*uh*".data := by
  refine ⟨?_, by decide, ?_⟩
  · intro raw alp awp
    unfold finalize
    rw [should_mark_indistinct_eq_spec]
  · have hsm : should_mark_indistinct "uh".data (some (-2)) none = true := by
      unfold should_mark_indistinct
      rw [if_neg (by decide), if_neg (by decide), if_pos]
      show decide ((-2 : ℚ) < -(6/5)) = true
      rw [decide_eq_true_eq]
      norm_num
    unfold finalize
    rw [if_pos hsm, if_neg (by decide)]
    decide

/-! ### C6 -/

/-- C6: `merge_dialogue` output is sorted by `(start, end)`: start times are
non-decreasing along the output, and among segments with equal start the end
times are non-decreasing. -/
theorem C6_merge_sorted (ls : List TranscriptSegment) (lsp : List Char)
    (rs : List TranscriptSegment) (rsp : List Char) :
    (merge_dialogue ls lsp rs rsp).Pairwise
      (fun a b => a.start ≤ b.start ∧ (a.start = b.start → a.stop ≤ b.stop)) := by
  unfold merge_dialogue
  refine List.Pairwise.imp ?_ (List.sorted_insertionSort segLE _)
  intro a b hab
  rcases hab with h | ⟨h, h'⟩
  · refine ⟨le_of_lt h, fun he => absurd h ?_⟩
    rw [he]
    exact lt_irrefl _
  · exact ⟨le_of_eq h, fun _ => h'⟩

/-! ### C7 -/

theorem split_preserves_speaker (segment : TranscriptSegment) (b : ℚ) :
    ∀ p ∈ split_segment_at_time segment b, p.speaker = segment.speaker := by
  intro p hp
  by_cases hout : b ≤ segment.start ∨ b ≥ segment.stop
  · unfold split_segment_at_time at hp
    rw [if_pos hout] at hp
    rw [List.mem_singleton] at hp
    subst hp
    rfl
  · push_neg at hout
    match hw : segment.words with
    | none =>
      unfold split_segment_at_time at hp
      rw [if_neg (by push_neg; exact hout), hw] at hp
      simp only [List.mem_cons, List.mem_singleton, List.not_mem_nil, or_false] at hp
      rcases hp with hp | hp <;> (subst hp; rfl)
    | some [] =>
      unfold split_segment_at_time at hp
      rw [if_neg (by push_neg; exact hout), hw] at hp
      simp only [List.mem_cons, List.mem_singleton, List.not_mem_nil, or_false] at hp
      rcases hp with hp | hp <;> (subst hp; rfl)
    | some (w :: ws) =>
      rw [split_aligned_eq segment w ws b hw hout.1 hout.2] at hp
      rcases List.mem_append.mp hp with hmem | hmem <;>
        · split at hmem
          · simp at hmem
          · rw [List.mem_singleton] at hmem
            subst hmem
            rfl

theorem foldl_split_speaker (bs : List ℚ) :
    ∀ (stack : List TranscriptSegment) (sp : Option (List Char)),
      (∀ x ∈ stack, x.speaker = sp) →
      ∀ p ∈ bs.foldl
          (fun st b => st.flatMap (fun part => split_segment_at_time part b)) stack,
        p.speaker = sp := by
  induction bs with
  | nil => intro stack sp h p hp; exact h p hp
  | cons b bs ih =>
    intro stack sp h p hp
    rw [List.foldl_cons] at hp
    refine ih _ sp ?_ p hp
    intro x hx
    rcases List.mem_flatMap.mp hx with ⟨part, hpart, hsplit⟩
    rw [split_preserves_speaker part b x hsplit]
    exact h part hpart

theorem boundaries_preserve_speaker (segments : List TranscriptSegment)
    (bs : List ℚ) (sp : Option (List Char)) (h : ∀ x ∈ segments, x.speaker = sp) :
    ∀ p ∈ split_segments_at_boundaries segments bs, p.speaker = sp := by
  intro p hp
  unfold split_segments_at_boundaries at hp
  split at hp
  · exact h p hp
  · rcases List.mem_filter.mp hp with ⟨hmem, -⟩
    rcases List.mem_flatMap.mp hmem with ⟨z, hz, hin⟩
    refine foldl_split_speaker _ [z] sp ?_ p hin
    intro x hx
    rw [List.mem_singleton] at hx
    rw [hx]
    exact h z hz

/-- C7: every segment in the output of `merge_dialogue` on unlabeled inputs
carries a speaker equal to one of the two given labels; no downstream
transformation (splitting, boundary application, sorting) clears or changes
the label assigned at the start. -/
theorem C7_speaker_labels (ls : List TranscriptSegment) (lsp : List Char)
    (rs : List TranscriptSegment) (rsp : List Char)
    (hls : ∀ s ∈ ls, s.speaker = none) (hrs : ∀ s ∈ rs, s.speaker = none) :
    ∀ s ∈ merge_dialogue ls lsp rs rsp,
      s.speaker = some lsp ∨ s.speaker = some rsp := by
  intro s hs
  unfold merge_dialogue at hs
  rw [List.mem_insertionSort] at hs
  rcases List.mem_append.mp hs with h | h
  · left
    refine boundaries_preserve_speaker _ _ (some lsp) ?_ s h
    intro x hx
    rcases List.mem_map.mp hx with ⟨y, -, rfl⟩
    rfl
  · right
    refine boundaries_preserve_speaker _ _ (some rsp) ?_ s h
    intro x hx
    rcases List.mem_map.mp hx with ⟨y, -, rfl⟩
    rfl

/-- A further plain segment, disjoint in time from `exPlain`. -/
def exPlainB : TranscriptSegment := ⟨3, 4, "Hi".data, none, none, none, none⟩

/-- Witness for C7: the labeled copy of `exPlain` is in the merged dialogue
of `[exPlain]` ("You") and `[exPlainB]` ("Other") and carries label "You". -/
theorem C7_witness :
    ({ exPlain with speaker := some "You".data } : TranscriptSegment).speaker
        = some "You".data
    ∨ ({ exPlain with speaker := some "You".data } : TranscriptSegment).speaker
        = some "Other".data :=
  C7_speaker_labels [exPlain] "You".data [exPlainB] "Other".data
    (by decide) (by decide) { exPlain with speaker := some "You".data } (by decide)

/-! ### C8 -/

/-- C8: `applyBoundaries` returns its segments unchanged when either input
list is empty; otherwise every part of its result has non-empty text after
stripping whitespace (empty-text fragments are silently dropped). -/
theorem C8_boundaries_behavior (segments : List TranscriptSegment) (bs : List ℚ) :
    ((segments = [] ∨ bs = []) → split_segments_at_boundaries segments bs = segments)
    ∧ (segments ≠ [] → bs ≠ [] →
       ∀ s ∈ split_segments_at_boundaries segments bs, pyStrip s.text ≠ []) := by
  constructor
  · intro h
    unfold split_segments_at_boundaries
    rw [if_pos]
    rcases h with h | h <;> simp [h]
  · intro h1 h2 s hs
    unfold split_segments_at_boundaries at hs
    rw [if_neg (by simp [h1, h2])] at hs
    rcases List.mem_filter.mp hs with ⟨-, hkeep⟩
    simpa [List.isEmpty_iff] using hkeep

/-- Witness for C8: the empty-input case returns the segments unchanged, and
in the split of `[exPlain]` at boundary 1 the surviving left fragment has
non-blank text (the blank right fragment was dropped). -/
theorem C8_witness :
    split_segments_at_boundaries ([] : List TranscriptSegment) [(1 : ℚ)] = []
    ∧ pyStrip ({ exPlain with stop := 1 } : TranscriptSegment).text ≠ [] :=
  ⟨(C8_boundaries_behavior [] [(1 : ℚ)]).1 (Or.inl rfl),
   (C8_boundaries_behavior [exPlain] [(1 : ℚ)]).2 (by simp) (by simp)
     { exPlain with stop := 1 } (by decide)⟩

/-! ### C9 -/

theorem fmt_time_eval (q : ℚ) (m sf c : ℤ)
    (h0 : ¬ q < 0) (hm : ⌊q / 60⌋ = m) (hs : ⌊q - (m : ℚ) * 60⌋ = sf)
    (hc : pyRound ((q - (m : ℚ) * 60 - (sf : ℚ)) * 100) = c) :
    fmt_time q =
      '[' :: (pad2 m.toNat ++ (':' :: (pad2 sf.toNat ++ ('.' :: (pad2 c.toNat ++ [']']))))) := by
  simp only [fmt_time]
  rw [if_neg h0, hm, hs, hc]

/-- C9: the formatter renders `75.256` as `[01:15.26]` and clamps `-3.0` to
`[00:00.00]` as the claim says, but at `59.999` the rounded centisecond value
is 100 and is rendered as the three-digit field `[00:59.100]` instead of
carrying into the seconds — `CC` is not confined to 0–99. -/
theorem C9_fmt_time_eval :
    fmt_time (75256/1000) = "[01:15.26]".data
    ∧ fmt_time (-3) = "[00:00.00]".data
    ∧ fmt_time (59999/1000) = "[00:59.100]".data
    ∧ pyRound (((59999/1000 : ℚ) - ((0 : ℤ) : ℚ) * 60 - ((59 : ℤ) : ℚ)) * 100) = 100 := by
  have hc1 : pyRound (((75256/1000 : ℚ) - ((1 : ℤ) : ℚ) * 60 - ((15 : ℤ) : ℚ)) * 100) = 26 := by
    have harg : ((75256/1000 : ℚ) - ((1 : ℤ) : ℚ) * 60 - ((15 : ℤ) : ℚ)) * 100 = 128/5 := by
      push_cast
      norm_num
    rw [harg]
    unfold pyRound
    have hf : ⌊(128/5 : ℚ)⌋ = 25 := by norm_num [Int.floor_eq_iff]
    rw [hf, if_neg (by push_cast; norm_num), if_pos (by push_cast; norm_num)]
    norm_num
  have hc0 : pyRound (((0 : ℚ) - ((0 : ℤ) : ℚ) * 60 - ((0 : ℤ) : ℚ)) * 100) = 0 := by
    have harg : ((0 : ℚ) - ((0 : ℤ) : ℚ) * 60 - ((0 : ℤ) : ℚ)) * 100 = 0 := by
      push_cast
      norm_num
    rw [harg]
    unfold pyRound
    norm_num
  have hc9 : pyRound (((59999/1000 : ℚ) - ((0 : ℤ) : ℚ) * 60 - ((59 : ℤ) : ℚ)) * 100) = 100 := by
    have harg : ((59999/1000 : ℚ) - ((0 : ℤ) : ℚ) * 60 - ((59 : ℤ) : ℚ)) * 100 = 999/10 := by
      push_cast
      norm_num
    rw [harg]
    unfold pyRound
    have hf : ⌊(999/10 : ℚ)⌋ = 99 := by norm_num [Int.floor_eq_iff]
    rw [hf, if_neg (by push_cast; norm_num), if_pos (by push_cast; norm_num)]
    norm_num
  refine ⟨?_, ?_, ?_, hc9⟩
  · rw [fmt_time_eval (75256/1000) 1 15 26 (by norm_num)
      (by norm_num [Int.floor_eq_iff]) (by push_cast; norm_num [Int.floor_eq_iff]) hc1]
    decide
  · have hneg : fmt_time (-3) = fmt_time 0 := by
      simp only [fmt_time]
      rw [if_pos (by norm_num), if_neg (by norm_num)]
    rw [hneg, fmt_time_eval 0 0 0 0 (by norm_num)
      (by norm_num) (by push_cast; norm_num) hc0]
    decide
  · rw [fmt_time_eval (59999/1000) 0 59 100 (by norm_num)
      (by norm_num [Int.floor_eq_iff]) (by push_cast; norm_num [Int.floor_eq_iff]) hc9]
    decide

end VibeTranscriber

